import Mathlib

/-! Verification development for the HubSpot → Databricks bronze ingestion
connector.  Each definition below is a shallow embedding of a function of the
repository sources:

* `00_hubspot_config_and_scopes.py` — `hs_request` (lines 72-108),
  `paginate_get` (112-126), `write_bronze_delta` (130-165),
  `get_watermark` (189-197), `set_watermark` (199-207);
* `01_hubspot_full_load.py` — `load_campaign_revenue` (40-53) and the
  module-level full-load run sequence (82-100);
* `02_hubspot_incremental_load_crm.py` — `incremental_object` (46-65).

Network I/O is modelled by response oracles (a function `Nat → HttpResponse`
giving the response to the n-th HTTP attempt, a list of page envelopes, a
per-guid fetch function); the wall clock and the Delta-table side effects are
modelled by explicit parameters and explicitly returned state. -/

namespace HubspotBronze

/-! ### HTTP layer: `hs_request` (00_hubspot_config_and_scopes.py, 72-108)

The Python function obtains one access token (line 83, before the `while`
loop), then loops: issue the request; on `status < 300` return
`resp.json() if resp.text else {}`; on a transient status with
`attempt <= max_retries` sleep and retry; otherwise raise.  The token
acquisition sequence is modelled by an oracle `tokenSeq : Nat → String`
(the i-th call to `get_access_token` yields `tokenSeq i`); the trace records
how many token fetches happened and which token each HTTP attempt carried. -/

structure HttpResponse where
  status : Nat
  retryAfter : Option String
  text : String
  json : String
deriving DecidableEq

/-- Model of `resp.json() if resp.text else {}` (line 99). -/
def decodeBody (r : HttpResponse) : String :=
  if r.text = "" then "\x7b\x7d" else r.json

/-- Model of `resp.status_code in (429, 500, 502, 503, 504)` (line 102). -/
def isTransientStatus (s : Nat) : Bool :=
  s == 429 || s == 500 || s == 502 || s == 503 || s == 504

/-- ASCII decimal digit test, the well-formedness check that Python
`retry_after.isdigit()` performs for integer-seconds headers. -/
def isDigitChar (c : Char) : Bool := decide (48 ≤ c.toNat) && decide (c.toNat ≤ 57)

/-- Decimal parse of an all-digit string, as `int(retry_after)` computes it. -/
def parseDigits (s : String) : Nat :=
  s.data.foldl (fun n c => n * 10 + (c.toNat - 48)) 0

/-- Model of line 104:
`int(retry_after) if retry_after and retry_after.isdigit() else int(min(60, 2 ** attempt))`.
`attempt` is the 1-based number of the attempt that just failed; a missing or
empty header is falsy, `isdigit` requires a non-empty all-digit string. -/
def retrySleep (attempt : Nat) (retryAfter : Option String) : Nat :=
  match retryAfter with
  | some ra => if !ra.data.isEmpty && ra.data.all isDigitChar then parseDigits ra
               else min 60 (2 ^ attempt)
  | none => min 60 (2 ^ attempt)

inductive HsOutcome where
  | success (body : String)
  | apiError (status : Nat) (text : String)
deriving DecidableEq

structure HsTrace where
  numCalls : Nat
  delays : List Nat
  callTokens : List String
  outcome : HsOutcome
deriving DecidableEq

/-- The retry loop of `hs_request` (lines 87-108).  `attempt` is the number of
attempts already made (the loop body first increments it).  `fuel` is a
structural-recursion bound; `hs_request` passes `maxRetries + 1`, which always
suffices because a retry requires `attempt + 1 ≤ maxRetries`, so the fuel-zero
arm is unreachable from `hs_request`. -/
def hsLoopF (responses : Nat → HttpResponse) (maxRetries : Nat) (token : String) :
    Nat → Nat → HsTrace
  | _, 0 => ⟨0, [], [], HsOutcome.apiError 0 ""⟩
  | attempt, fuel + 1 =>
    let a := attempt + 1
    let r := responses a
    if r.status < 300 then
      ⟨1, [], [token], HsOutcome.success (decodeBody r)⟩
    else if isTransientStatus r.status && decide (a ≤ maxRetries) then
      let t := hsLoopF responses maxRetries token a fuel
      ⟨t.numCalls + 1, retrySleep a r.retryAfter :: t.delays, token :: t.callTokens, t.outcome⟩
    else
      ⟨1, [], [token], HsOutcome.apiError r.status r.text⟩

structure HsRun where
  tokenFetches : Nat
  trace : HsTrace
deriving DecidableEq

/-- `hs_request` (lines 72-108).  The source fetches the token exactly once,
on line 83, before entering the retry loop; every attempt reuses it.
The source default for `max_retries` is 6. -/
def hs_request (tokenSeq : Nat → String) (responses : Nat → HttpResponse)
    (maxRetries : Nat) : HsRun :=
  ⟨1, hsLoopF responses maxRetries (tokenSeq 0) 0 (maxRetries + 1)⟩

/-! ### Pagination: `paginate_get` (00_hubspot_config_and_scopes.py, 112-126) -/

/-- Python truthiness of an optional string: `None` and `""` are falsy. -/
def pyTruthyStr (s : Option String) : Bool :=
  match s with
  | none => false
  | some s => !s.isEmpty

/-- The parsed envelope of one page: its `results` field (raw records, kept
kept abstract as strings) and the value found at `paging.next.after` (line 122),
`none` when any level of the path is missing. -/
structure PageData where
  results : List String
  after : Option String
deriving DecidableEq

/-- Query parameters, modelled as an insertion-ordered dict. -/
abbrev Params := List (String × String)

/-- Python `p[k] = v`: overwrite in place if the key exists, else append. -/
def setParam (p : Params) (k v : String) : Params :=
  if p.any (fun kv => kv.1 == k) then
    p.map (fun kv => if kv.1 == k then (k, v) else kv)
  else p ++ [(k, v)]

def getParam (p : Params) (k : String) : Option String :=
  (p.find? (fun kv => kv.1 == k)).map (fun kv => kv.2)

/-- The `while True` loop of `paginate_get` (lines 119-125): the n-th call
receives the n-th element of `pages`.  Returns `none` if the supplied finite
response list is exhausted before a page without cursor is seen (i.e. the
loop would keep calling); otherwise returns the params used on each call,
in order, and the accumulated `out`. -/
def paginateGo : List PageData → Params → Option (List Params × List String)
  | [], _ => none
  | page :: rest, p =>
    if pyTruthyStr page.after then
      match paginateGo rest (setParam p "after" (page.after.getD "")) with
      | none => none
      | some (tr, out) => some (p :: tr, page.results ++ out)
    else some ([p], page.results)

/-- `paginate_get` (lines 112-126): `p = dict(params or \x7b\x7d)` then loop. -/
def paginate_get (pages : List PageData) (params : Params) :
    Option (List Params × List String) :=
  paginateGo pages params

/-- The params sent on each successive call when the cursors of the
non-final pages are `cs`: the first call uses `p`, and each cursor is merged
into the params of the following call under key `"after"`. -/
def paramTrace (p : Params) : List String → List Params
  | [] => [p]
  | c :: cs => p :: paramTrace (setParam p "after" c) cs

/-! ### Watermark store (00_hubspot_config_and_scopes.py, 170-207)

The Delta table at `watermark_path` is modelled as the list of its rows. -/

structure WatermarkEntry where
  entity : String
  watermark_type : String
  watermark_value : Option String
  updated_at : Option Nat
deriving DecidableEq

/-- `set_watermark` (lines 199-207): keep the rows of every other entity
(`df.filter(F.col("entity") != entity)`), union with one fresh row stamped
`now`, and overwrite the table. -/
def set_watermark (store : List WatermarkEntry) (entity watermark_type watermark_value : String)
    (now : Nat) : List WatermarkEntry :=
  (store.filter (fun e => e.entity != entity)) ++
    [⟨entity, watermark_type, some watermark_value, some now⟩]

/-- Whether `a` sorts strictly before `b` under
`orderBy(F.col("updated_at").desc_nulls_last())` (line 193): a non-null value
precedes a null, and larger values precede smaller ones. -/
def updStrictlyAfter (a b : Option Nat) : Bool :=
  match a, b with
  | some x, some y => y < x
  | some _, none => true
  | none, _ => false

/-- `limit(1)` after the descending sort: the first row under the ordering.
Spark leaves ties unspecified; the model resolves them deterministically in
favour of the earlier row, which matches any stable sort of the table. -/
def pickLatest : List WatermarkEntry → Option WatermarkEntry
  | [] => none
  | e :: rest =>
    match pickLatest rest with
    | none => some e
    | some b => if updStrictlyAfter b.updated_at e.updated_at then some b else some e

/-- `get_watermark` (lines 189-197): filter by entity, sort by `updated_at`
descending with nulls last, take the `watermark_value` of the first row
(which is a nullable column), or the default when no row matches. -/
def get_watermark (store : List WatermarkEntry) (entity : String) (default_iso : String) :
    Option String :=
  match pickLatest (store.filter (fun e => e.entity == entity)) with
  | some e => e.watermark_value
  | none => some default_iso

/-! ### Incremental load (02_hubspot_incremental_load_crm.py, 46-65) -/

/-- A raw CRM record: only its (optional) `properties` sub-map matters here;
property values may be JSON null. -/
structure HsRecord where
  properties : Option (List (String × Option String))
deriving DecidableEq

/-- `(r.get("properties") or \x7b\x7d).get("hs_lastmodifieddate")` for key `k`:
`none` both when the key is absent and when its value is null. -/
def getProperty (r : HsRecord) (k : String) : Option String :=
  ((r.properties.getD []).lookup k).join

/-- Lexicographic code-point comparison of character lists: the `<` of Python
on `str` values compares exactly like this. -/
def charListLt : List Char → List Char → Bool
  | [], [] => false
  | [], _ :: _ => true
  | _ :: _, [] => false
  | a :: as, b :: bs =>
    decide (a.toNat < b.toNat) || (decide (a.toNat = b.toNat) && charListLt as bs)

/-- Python `a < b` on strings. -/
def strLt (a b : String) : Bool := charListLt a.data b.data

/-- One iteration of the max scan (lines 55-60):
`if v and (max_wm is None or v > max_wm): max_wm = v`. -/
def stepMax (max_wm : Option String) (r : HsRecord) : Option String :=
  match getProperty r "hs_lastmodifieddate", max_wm with
  | none, _ => max_wm
  | some v, none => if v.isEmpty then max_wm else some v
  | some v, some m => if v.isEmpty then max_wm else if strLt m v then some v else max_wm

/-- The `max_wm` computed by the loop on lines 54-60. -/
def computeMaxWm (rows : List HsRecord) : Option String :=
  rows.foldl stepMax none

/-- The truthy `hs_lastmodifieddate` values carried by `rows`, in order. -/
def changeValues (rows : List HsRecord) : List String :=
  rows.filterMap (fun r =>
    match getProperty r "hs_lastmodifieddate" with
    | none => none
    | some v => if v.isEmpty then none else some v)

structure SinkWrite where
  entity : String
  records : List HsRecord
  mode : String
deriving DecidableEq

/-- Observable outcome of one `incremental_object` run: the final watermark
table, the sink writes performed, and the exception (if one propagated). -/
structure RunResult where
  store : List WatermarkEntry
  sinkWrites : List SinkWrite
  error : Option String
deriving DecidableEq

/-- `incremental_object` (lines 46-65).  `rows` is what `crm_search_since`
returned; `writeOk` says whether the Delta write inside `write_bronze_delta`
succeeds (when `rows` is empty that function returns before writing, so no
failure is possible); `now` is the clock value `set_watermark` would stamp.
On write failure the exception propagates before any watermark update. -/
def incremental_object (entity : String) (rows : List HsRecord) (writeOk : Bool)
    (now : Nat) (store : List WatermarkEntry) : RunResult :=
  if rows.isEmpty then
    ⟨store, [], none⟩
  else if !writeOk then
    ⟨store, [], some "sink write failed"⟩
  else
    let max_wm := computeMaxWm rows
    if pyTruthyStr max_wm then
      ⟨set_watermark store entity "hs_lastmodifieddate" (max_wm.getD "") now,
       [⟨entity, rows, "append"⟩], none⟩
    else
      ⟨store, [⟨entity, rows, "append"⟩], none⟩

/-! ### Full load (01_hubspot_full_load.py) -/

/-- The module-level run sequence of `01_hubspot_full_load.py` (lines 82-100):
one straight-line statement per entity, in source order, with no per-entity
exception handling.  Each loader either completes or raises; modelled by the
oracle `fails`.  Returns (entities attempted, entities completed, first
failure).  A raise propagates out of the notebook, so nothing after the
failing statement runs. -/
def runSeq (fails : String → Bool) : List String → List String × List String × Option String
  | [] => ([], [], none)
  | e :: rest =>
    if fails e then ([e], [], some e)
    else
      let r := runSeq fails rest
      (e :: r.1, e :: r.2.1, r.2.2)

/-- The entities loaded by lines 84-98, in source order. -/
def fullLoadSequence : List String :=
  ["crm_owners", "crm_marketing_events", "crm_feedback_submissions",
   "crm_partner_clients", "crm_partner_services", "scheduler_meeting_links",
   "marketing_campaigns", "marketing_campaign_revenue", "settings_currencies",
   "cms_domains", "tax_rates", "comm_pref_definitions"]

def runFullLoad (fails : String → Bool) : List String × List String × Option String :=
  runSeq fails fullLoadSequence

/-- A campaign row as consulted by `load_campaign_revenue`: only `c.get("id")`
is read (line 44); absent and null ids both yield `none`. -/
structure Campaign where
  id : Option String
deriving DecidableEq

/-- One revenue row appended to `out`: the decoded response body plus the
`_campaignGuid` tag added on line 49. -/
structure RevRecord where
  body : String
  campaignGuid : String
deriving DecidableEq

/-- One iteration of the loop on lines 43-52: skip falsy guids; on fetch
success append the tagged row; on exception print and skip. -/
def revenueStep (fetch : String → Option String) (out : List RevRecord) (c : Campaign) :
    List RevRecord :=
  match c.id with
  | none => out
  | some g =>
    if g.isEmpty then out
    else
      match fetch g with
      | some body => out ++ [⟨body, g⟩]
      | none => out

/-- `load_campaign_revenue` (lines 40-53): the batch handed to
`write_bronze_delta(out, "marketing_campaign_revenue", mode="overwrite")`.
`fetch g = none` models the per-guid `hs_request` raising. -/
def load_campaign_revenue (campaigns : List Campaign) (fetch : String → Option String) :
    List RevRecord :=
  campaigns.foldl (revenueStep fetch) []

/-! ### Concrete inputs used to instantiate the theorems below -/

/-- A first attempt answered 500 (no Retry-After), the second one 200. -/
def cexTokenResponses : Nat → HttpResponse := fun i =>
  if i = 1 then ⟨500, none, "err", "E"⟩ else ⟨200, none, "ok", "BODY"⟩

/-- Every attempt is answered 200 with body `BODY`. -/
def okResponses : Nat → HttpResponse := fun _ => ⟨200, none, "ok", "BODY"⟩

def okTrace : HsTrace := ⟨1, [], ["tok"], HsOutcome.success "BODY"⟩

/-- A first attempt answered 429 with `Retry-After: 7`, the second one 200. -/
def retryResponses : Nat → HttpResponse := fun i =>
  if i = 1 then ⟨429, some "7", "err", "E"⟩ else ⟨200, none, "ok", "BODY"⟩

/-- Two cursor-carrying pages followed by a final page without cursor. -/
def demoMids : List PageData := [⟨["r1"], some "a"⟩, ⟨["r2"], some "b"⟩]

def demoLast : PageData := ⟨["r3"], none⟩

def demoParams : Params := [("limit", "100")]

/-- Two rows for one entity (the fresher one carries `v2`) plus a row of an
unrelated entity. -/
def demoStore : List WatermarkEntry :=
  [⟨"crm_feedback_submissions", "hs_lastmodifieddate", some "v1", some 1⟩,
   ⟨"crm_feedback_submissions", "hs_lastmodifieddate", some "v2", some 7⟩,
   ⟨"other_entity", "hs_lastmodifieddate", some "x", some 9⟩]

def demoRecord (v : String) : HsRecord :=
  ⟨some [("hs_lastmodifieddate", some v)]⟩

/-- Change-field values arrive out of order; the maximum is the middle one. -/
def demoRows : List HsRecord :=
  [demoRecord "2024-01-02T00:00:00Z", demoRecord "2024-01-05T00:00:00Z",
   demoRecord "2024-01-03T00:00:00Z"]

/-- A fetched record that carries no `properties` map at all. -/
def noPropsRecord : HsRecord := ⟨none⟩

def demoCampaigns : List Campaign := [⟨some "g1"⟩, ⟨some "g2"⟩, ⟨some "g3"⟩]

/-- The dependent revenue fetch raises for campaign `g2` and succeeds for the
other two. -/
def demoFetch : String → Option String := fun g =>
  if g == "g2" then none else some ("rev-" ++ g)

/-! ### Helper lemmas: watermark store -/

theorem updStrictlyAfter_irrefl (a : Option Nat) : updStrictlyAfter a a = false := by
  cases a <;> simp [updStrictlyAfter]

theorem updStrictlyAfter_asymm {a b : Option Nat} (h : updStrictlyAfter a b = true) :
    updStrictlyAfter b a = false := by
  cases a <;> cases b <;> simp_all [updStrictlyAfter]
  omega

theorem updStrictlyAfter_neg_trans {a b c : Option Nat}
    (h1 : updStrictlyAfter a b = false) (h2 : updStrictlyAfter b c = false) :
    updStrictlyAfter a c = false := by
  cases a <;> cases b <;> cases c <;> simp_all [updStrictlyAfter]
  omega

theorem pickLatest_eq_none {l : List WatermarkEntry} (h : pickLatest l = none) : l = [] := by
  cases l with
  | nil => rfl
  | cons a rest =>
    cases hp : pickLatest rest with
    | none => simp only [pickLatest, hp] at h; exact absurd h (by simp)
    | some b =>
      simp only [pickLatest, hp] at h
      by_cases hb : updStrictlyAfter b.updated_at a.updated_at = true
      · rw [if_pos hb] at h; exact absurd h (by simp)
      · rw [if_neg hb] at h; exact absurd h (by simp)

theorem pickLatest_mem : ∀ (l : List WatermarkEntry) (e : WatermarkEntry),
    pickLatest l = some e → e ∈ l := by
  intro l
  induction l with
  | nil => intro e h; simp [pickLatest] at h
  | cons a rest ih =>
    intro e h
    cases hp : pickLatest rest with
    | none => simp only [pickLatest, hp, Option.some.injEq] at h; simp [h]
    | some b =>
      simp only [pickLatest, hp] at h
      by_cases hb : updStrictlyAfter b.updated_at a.updated_at = true
      · rw [if_pos hb] at h
        simp at h
        exact List.mem_cons_of_mem a (h ▸ ih b hp)
      · rw [if_neg hb] at h
        simp at h
        simp [h]

theorem pickLatest_max : ∀ (l : List WatermarkEntry) (e : WatermarkEntry),
    pickLatest l = some e →
      ∀ x ∈ l, updStrictlyAfter x.updated_at e.updated_at = false := by
  intro l
  induction l with
  | nil => intro e h; simp [pickLatest] at h
  | cons a rest ih =>
    intro e h x hx
    cases hp : pickLatest rest with
    | none =>
      simp only [pickLatest, hp, Option.some.injEq] at h
      have hrest : rest = [] := pickLatest_eq_none hp
      subst hrest
      simp at hx
      subst hx
      rw [h]
      exact updStrictlyAfter_irrefl _
    | some b =>
      simp only [pickLatest, hp] at h
      by_cases hb : updStrictlyAfter b.updated_at a.updated_at = true
      · rw [if_pos hb] at h
        simp at h
        subst h
        rcases List.mem_cons.mp hx with hxa | hxr
        · subst hxa; exact updStrictlyAfter_asymm hb
        · exact ih b hp x hxr
      · rw [if_neg hb] at h
        simp at h
        subst h
        rcases List.mem_cons.mp hx with hxa | hxr
        · subst hxa; exact updStrictlyAfter_irrefl _
        · have hxb := ih b hp x hxr
          have hbe : updStrictlyAfter b.updated_at a.updated_at = false :=
            Bool.eq_false_iff.mpr hb
          exact updStrictlyAfter_neg_trans hxb hbe

theorem filter_set_watermark_same (store : List WatermarkEntry) (e wt v : String) (now : Nat) :
    (set_watermark store e wt v now).filter (fun x => x.entity == e) =
      [⟨e, wt, some v, some now⟩] := by
  unfold set_watermark
  rw [List.filter_append]
  have h1 : (store.filter (fun x => x.entity != e)).filter (fun x => x.entity == e) = [] := by
    rw [List.filter_eq_nil_iff]
    intro x hx
    have := List.of_mem_filter hx
    simp_all
  rw [h1]
  simp

theorem filter_set_watermark_other (store : List WatermarkEntry) (e wt v : String) (now : Nat)
    (e' : String) (hne : e' ≠ e) :
    (set_watermark store e wt v now).filter (fun x => x.entity == e') =
      store.filter (fun x => x.entity == e') := by
  unfold set_watermark
  rw [List.filter_append]
  have h1 : ([(⟨e, wt, some v, some now⟩ : WatermarkEntry)]).filter
      (fun x => x.entity == e') = [] := by
    simp [Ne.symm hne]
  rw [h1, List.append_nil]
  induction store with
  | nil => rfl
  | cons a rest ih =>
    by_cases hae : a.entity = e
    · have h2 : (a.entity != e) = false := by simp [hae]
      have h3 : (a.entity == e') = false := by
        simp only [beq_eq_false_iff_ne, ne_eq, hae]
        exact Ne.symm hne
      simp [List.filter_cons, h2, h3, ih]
    · have h2 : (a.entity != e) = true := by simp [hae]
      simp [List.filter_cons, h2, ih]

theorem get_set_watermark_same (store : List WatermarkEntry) (e wt v : String) (now : Nat)
    (d : String) :
    get_watermark (set_watermark store e wt v now) e d = some v := by
  unfold get_watermark
  rw [filter_set_watermark_same]
  simp [pickLatest]

theorem get_set_watermark_other (store : List WatermarkEntry) (e wt v : String) (now : Nat)
    (e' d : String) (hne : e' ≠ e) :
    get_watermark (set_watermark store e wt v now) e' d = get_watermark store e' d := by
  unfold get_watermark
  rw [filter_set_watermark_other store e wt v now e' hne]

/-! ### Claims C7 and C8: watermark store semantics -/

/-- C7: after `set_watermark entity wtype value` completes, the next
`get_watermark` for that entity returns the value just written, and for every
other entity `get_watermark` returns exactly what it returned before the set
(rows of other entities are untouched). -/
theorem C7_set_then_get (store : List WatermarkEntry) (entity wtype value : String)
    (now : Nat) (d e' d' : String) (hne : e' ≠ entity) :
    get_watermark (set_watermark store entity wtype value now) entity d = some value ∧
    get_watermark (set_watermark store entity wtype value now) e' d' =
      get_watermark store e' d' :=
  ⟨get_set_watermark_same store entity wtype value now d,
   get_set_watermark_other store entity wtype value now e' d' hne⟩

theorem C7_witness :
    ("other_entity" : String) ≠ "crm_feedback_submissions" ∧
    (get_watermark
        (set_watermark demoStore "crm_feedback_submissions" "hs_lastmodifieddate" "v9" 11)
        "crm_feedback_submissions" "dflt" = some "v9" ∧
     get_watermark
        (set_watermark demoStore "crm_feedback_submissions" "hs_lastmodifieddate" "v9" 11)
        "other_entity" "dflt" = get_watermark demoStore "other_entity" "dflt") :=
  ⟨by decide,
   C7_set_then_get demoStore "crm_feedback_submissions" "hs_lastmodifieddate" "v9" 11
     "dflt" "other_entity" "dflt" (by decide)⟩

/-- C8: `get_watermark` returns the `watermark_value` of the row of the entity
with the greatest `updated_at` under the nulls-last descending order
(`updStrictlyAfter` never ranks another row of the entity strictly above the
returned one), and returns the caller-supplied default, without error, when
the entity has no row. -/
theorem C8_get_latest (store : List WatermarkEntry) (entity d : String) :
    (store.filter (fun x => x.entity == entity) = [] →
       get_watermark store entity d = some d) ∧
    (store.filter (fun x => x.entity == entity) ≠ [] →
       ∃ e, e ∈ store ∧ e.entity = entity ∧
         get_watermark store entity d = e.watermark_value ∧
         ∀ x ∈ store, x.entity = entity →
           updStrictlyAfter x.updated_at e.updated_at = false) := by
  constructor
  · intro h
    unfold get_watermark
    rw [h]
    rfl
  · intro h
    cases hp : pickLatest (store.filter (fun x => x.entity == entity)) with
    | none => exact absurd (pickLatest_eq_none hp) h
    | some e =>
      have hmemf := pickLatest_mem _ e hp
      refine ⟨e, List.mem_of_mem_filter hmemf, ?_, ?_, ?_⟩
      · have := List.of_mem_filter hmemf
        simpa using this
      · unfold get_watermark
        rw [hp]
      · intro x hx hxe
        exact pickLatest_max _ e hp x (List.mem_filter.mpr ⟨hx, by simp [hxe]⟩)

/-! ### Helper lemmas: the code-point order used by the watermark max scan -/

theorem charListLt_cons_true_iff (x y : Char) (xs ys : List Char) :
    charListLt (x :: xs) (y :: ys) = true ↔
      x.toNat < y.toNat ∨ (x.toNat = y.toNat ∧ charListLt xs ys = true) := by
  simp [charListLt]

theorem charListLt_cons_false_iff (x y : Char) (xs ys : List Char) :
    charListLt (x :: xs) (y :: ys) = false ↔
      y.toNat < x.toNat ∨ (x.toNat = y.toNat ∧ charListLt xs ys = false) := by
  rw [Bool.eq_false_iff]
  simp only [ne_eq, charListLt, Bool.or_eq_true, Bool.and_eq_true, decide_eq_true_eq,
    not_or, not_and, Bool.not_eq_true]
  constructor
  · rintro ⟨h1, h2⟩
    rcases Nat.lt_trichotomy x.toNat y.toNat with h | h | h
    · exact absurd h h1
    · exact Or.inr ⟨h, h2 h⟩
    · exact Or.inl h
  · rintro (h | ⟨he, hr⟩)
    · exact ⟨by omega, fun hxy => absurd hxy (by omega)⟩
    · exact ⟨by omega, fun _ => hr⟩

theorem charListLt_irrefl : ∀ (l : List Char), charListLt l l = false := by
  intro l
  induction l with
  | nil => rfl
  | cons c cs ih => simp [charListLt, ih]

theorem charListLt_asymm : ∀ (a b : List Char),
    charListLt a b = true → charListLt b a = false := by
  intro a
  induction a with
  | nil =>
    intro b h
    cases b with
    | nil => simp [charListLt] at h
    | cons y ys => rfl
  | cons x xs ih =>
    intro b h
    cases b with
    | nil => simp [charListLt] at h
    | cons y ys =>
      rw [charListLt_cons_true_iff] at h
      rw [charListLt_cons_false_iff]
      rcases h with h | ⟨he, hr⟩
      · exact Or.inl h
      · exact Or.inr ⟨he.symm, ih ys hr⟩

theorem charListLt_neg_trans : ∀ (a b c : List Char),
    charListLt a b = false → charListLt b c = false → charListLt a c = false := by
  intro a
  induction a with
  | nil =>
    intro b c h1 h2
    cases b with
    | nil => exact h2
    | cons y ys =>
      cases c with
      | nil => rfl
      | cons z zs => simp [charListLt] at h1
  | cons x xs ih =>
    intro b c h1 h2
    cases c with
    | nil => rfl
    | cons z zs =>
      cases b with
      | nil => simp [charListLt] at h2
      | cons y ys =>
        rw [charListLt_cons_false_iff] at h1 h2
        rw [charListLt_cons_false_iff]
        rcases h1 with h1 | ⟨he1, hr1⟩
        · rcases h2 with h2 | ⟨he2, hr2⟩
          · exact Or.inl (by omega)
          · exact Or.inl (by omega)
        · rcases h2 with h2 | ⟨he2, hr2⟩
          · exact Or.inl (by omega)
          · exact Or.inr ⟨by omega, ih ys zs hr1 hr2⟩

theorem strLt_asymm {a b : String} (h : strLt a b = true) : strLt b a = false :=
  charListLt_asymm a.data b.data h

theorem strLt_neg_trans {a b c : String} (h1 : strLt a b = false)
    (h2 : strLt b c = false) : strLt a c = false :=
  charListLt_neg_trans a.data b.data c.data h1 h2

/-! ### Helper lemmas: the `max_wm` fold of `incremental_object` -/

theorem changeValues_nil : changeValues [] = [] := rfl

theorem changeValues_cons_none {r : HsRecord} (h : getProperty r "hs_lastmodifieddate" = none)
    (rest : List HsRecord) : changeValues (r :: rest) = changeValues rest := by
  simp [changeValues, h]

theorem changeValues_cons_empty {r : HsRecord} {w : String}
    (h : getProperty r "hs_lastmodifieddate" = some w) (hw : w.isEmpty = true)
    (rest : List HsRecord) : changeValues (r :: rest) = changeValues rest := by
  simp [changeValues, h, hw]

theorem changeValues_cons_some {r : HsRecord} {w : String}
    (h : getProperty r "hs_lastmodifieddate" = some w) (hw : w.isEmpty = false)
    (rest : List HsRecord) : changeValues (r :: rest) = w :: changeValues rest := by
  simp [changeValues, h, hw]

theorem changeValues_not_empty : ∀ (rows : List HsRecord) (v : String),
    v ∈ changeValues rows → v.isEmpty = false := by
  intro rows
  induction rows with
  | nil => intro v hv; simp [changeValues] at hv
  | cons r rest ih =>
    intro v hv
    cases hgp : getProperty r "hs_lastmodifieddate" with
    | none =>
      rw [changeValues_cons_none hgp] at hv
      exact ih v hv
    | some w =>
      by_cases hw : w.isEmpty = true
      · rw [changeValues_cons_empty hgp hw] at hv
        exact ih v hv
      · have hw' : w.isEmpty = false := Bool.eq_false_iff.mpr hw
        rw [changeValues_cons_some hgp hw'] at hv
        rcases List.mem_cons.mp hv with hvw | hvr
        · exact hvw ▸ hw'
        · exact ih v hvr

theorem foldl_stepMax_ge_start : ∀ (rows : List HsRecord) (a m : String),
    rows.foldl stepMax (some a) = some m → strLt m a = false := by
  intro rows
  induction rows with
  | nil =>
    intro a m h
    simp at h
    subst h
    exact charListLt_irrefl a.data
  | cons r rest ih =>
    intro a m h
    simp only [List.foldl_cons] at h
    cases hgp : getProperty r "hs_lastmodifieddate" with
    | none =>
      have hs : stepMax (some a) r = some a := by simp [stepMax, hgp]
      rw [hs] at h
      exact ih a m h
    | some v =>
      by_cases hv : v.isEmpty = true
      · have hs : stepMax (some a) r = some a := by simp [stepMax, hgp, hv]
        rw [hs] at h
        exact ih a m h
      · by_cases hlt : strLt a v = true
        · have hs : stepMax (some a) r = some v := by
            simp [stepMax, hgp, Bool.eq_false_iff.mpr hv, hlt]
          rw [hs] at h
          have hmv := ih v m h
          have hva : strLt v a = false := strLt_asymm hlt
          exact strLt_neg_trans hmv hva
        · have hs : stepMax (some a) r = some a := by
            simp [stepMax, hgp, Bool.eq_false_iff.mpr hv, Bool.eq_false_iff.mpr hlt]
          rw [hs] at h
          exact ih a m h

theorem foldl_stepMax_ge_values : ∀ (rows : List HsRecord) (acc : Option String) (m : String),
    rows.foldl stepMax acc = some m → ∀ v ∈ changeValues rows, strLt m v = false := by
  intro rows
  induction rows with
  | nil => intro acc m h v hv; simp [changeValues] at hv
  | cons r rest ih =>
    intro acc m h v hv
    simp only [List.foldl_cons] at h
    cases hgp : getProperty r "hs_lastmodifieddate" with
    | none =>
      rw [changeValues_cons_none hgp] at hv
      exact ih _ m h v hv
    | some w =>
      by_cases hw : w.isEmpty = true
      · rw [changeValues_cons_empty hgp hw] at hv
        exact ih _ m h v hv
      · have hw' : w.isEmpty = false := Bool.eq_false_iff.mpr hw
        rw [changeValues_cons_some hgp hw'] at hv
        rcases List.mem_cons.mp hv with hvw | hvr
        · subst hvw
          cases acc with
          | none =>
            have hs : stepMax none r = some v := by simp [stepMax, hgp, hw']
            rw [hs] at h
            exact foldl_stepMax_ge_start rest v m h
          | some a =>
            by_cases hlt : strLt a v = true
            · have hs : stepMax (some a) r = some v := by simp [stepMax, hgp, hw', hlt]
              rw [hs] at h
              exact foldl_stepMax_ge_start rest v m h
            · have hs : stepMax (some a) r = some a := by
                simp [stepMax, hgp, hw', Bool.eq_false_iff.mpr hlt]
              rw [hs] at h
              have hma := foldl_stepMax_ge_start rest a m h
              exact strLt_neg_trans hma (Bool.eq_false_iff.mpr hlt)
        · exact ih _ m h v hvr

theorem foldl_stepMax_mem : ∀ (rows : List HsRecord) (acc : Option String) (m : String),
    rows.foldl stepMax acc = some m → acc = some m ∨ m ∈ changeValues rows := by
  intro rows
  induction rows with
  | nil => intro acc m h; exact Or.inl (by simpa using h)
  | cons r rest ih =>
    intro acc m h
    simp only [List.foldl_cons] at h
    cases hgp : getProperty r "hs_lastmodifieddate" with
    | none =>
      have hs : stepMax acc r = acc := by
        cases acc <;> simp [stepMax, hgp]
      rw [hs] at h
      rcases ih acc m h with hl | hr
      · exact Or.inl hl
      · exact Or.inr ((changeValues_cons_none hgp rest) ▸ hr)
    | some w =>
      by_cases hw : w.isEmpty = true
      · have hs : stepMax acc r = acc := by
          cases acc <;> simp [stepMax, hgp, hw]
        rw [hs] at h
        rcases ih acc m h with hl | hr
        · exact Or.inl hl
        · exact Or.inr ((changeValues_cons_empty hgp hw rest) ▸ hr)
      · have hw' : w.isEmpty = false := Bool.eq_false_iff.mpr hw
        rw [changeValues_cons_some hgp hw' rest]
        cases acc with
        | none =>
          have hs : stepMax none r = some w := by simp [stepMax, hgp, hw']
          rw [hs] at h
          rcases ih (some w) m h with hl | hr
          · exact Or.inr (List.mem_cons.mpr (Or.inl (by simpa using hl.symm)))
          · exact Or.inr (List.mem_cons.mpr (Or.inr hr))
        | some a =>
          by_cases hlt : strLt a w = true
          · have hs : stepMax (some a) r = some w := by simp [stepMax, hgp, hw', hlt]
            rw [hs] at h
            rcases ih (some w) m h with hl | hr
            · exact Or.inr (List.mem_cons.mpr (Or.inl (by simpa using hl.symm)))
            · exact Or.inr (List.mem_cons.mpr (Or.inr hr))
          · have hs : stepMax (some a) r = some a := by
              simp [stepMax, hgp, hw', Bool.eq_false_iff.mpr hlt]
            rw [hs] at h
            rcases ih (some a) m h with hl | hr
            · exact Or.inl hl
            · exact Or.inr (List.mem_cons.mpr (Or.inr hr))

/-- Everything the `max_wm` scan guarantees about its result: it is one of the
truthy change values, it is maximal among them under the string
comparison, and it is non-empty (so `if max_wm:` takes the set branch). -/
theorem computeMaxWm_spec (rows : List HsRecord) (m : String)
    (h : computeMaxWm rows = some m) :
    m ∈ changeValues rows ∧ (∀ v ∈ changeValues rows, strLt m v = false) ∧
      m.isEmpty = false := by
  have hmem : m ∈ changeValues rows := by
    rcases foldl_stepMax_mem rows none m h with hc | hc
    · exact absurd hc (by simp)
    · exact hc
  exact ⟨hmem, foldl_stepMax_ge_values rows none m h, changeValues_not_empty rows m hmem⟩

theorem C8_witness :
    (demoStore.filter (fun x => x.entity == "crm_feedback_submissions") ≠ []) ∧
    (∃ e, e ∈ demoStore ∧ e.entity = "crm_feedback_submissions" ∧
       get_watermark demoStore "crm_feedback_submissions" "dflt" = e.watermark_value ∧
       ∀ x ∈ demoStore, x.entity = "crm_feedback_submissions" →
         updStrictlyAfter x.updated_at e.updated_at = false) ∧
    get_watermark [] "crm_feedback_submissions" "dflt" = some "dflt" :=
  ⟨by decide,
   (C8_get_latest demoStore "crm_feedback_submissions" "dflt").2 (by decide),
   (C8_get_latest [] "crm_feedback_submissions" "dflt").1 rfl⟩

/-! ### Claims C2 and C3: incremental watermark advancement -/

/-- C2 counterexample: a run that fetched one record (so records were
fetched) and whose sink write succeeded, yet no watermark is written, because
the record carries no `hs_lastmodifieddate` — `incremental_object` guards the
`set_watermark` call with `if max_wm:`, so `set` is not called "whenever any
records were fetched".  The store stays empty and a subsequent
`get_watermark` still returns the epoch default. -/
theorem C2_counterexample :
    ([noPropsRecord] : List HsRecord).isEmpty = false ∧
    (incremental_object "crm_feedback_submissions" [noPropsRecord] true 5 []).error = none ∧
    (incremental_object "crm_feedback_submissions" [noPropsRecord] true 5 []).sinkWrites =
      [⟨"crm_feedback_submissions", [noPropsRecord], "append"⟩] ∧
    (incremental_object "crm_feedback_submissions" [noPropsRecord] true 5 []).store = [] ∧
    get_watermark (incremental_object "crm_feedback_submissions" [noPropsRecord] true 5 []).store
      "crm_feedback_submissions" "1970-01-01T00:00:00.000Z" =
      some "1970-01-01T00:00:00.000Z" := by
  decide

/-- C2 (amended): in an incremental run whose search returned records of
which at least one carries a non-empty `hs_lastmodifieddate`, and whose sink
write succeeds, `set_watermark` is called for the entity with the maximum of
those change values under the string comparison of the code — the maximum seen,
not the last-seen value — and the next `get_watermark` observes it.  (When
records were fetched but none carries the field, the watermark is left
unchanged, as the counterexample shows.) -/
theorem C2_amended_watermark_max (entity : String) (rows : List HsRecord) (now : Nat)
    (store : List WatermarkEntry) (m : String) (hmax : computeMaxWm rows = some m) :
    (incremental_object entity rows true now store).error = none ∧
    (incremental_object entity rows true now store).sinkWrites =
      [⟨entity, rows, "append"⟩] ∧
    (incremental_object entity rows true now store).store =
      set_watermark store entity "hs_lastmodifieddate" m now ∧
    m ∈ changeValues rows ∧
    (∀ v ∈ changeValues rows, strLt m v = false) ∧
    (∀ d, get_watermark (incremental_object entity rows true now store).store entity d =
       some m) := by
  obtain ⟨hmem, hmaxall, hne⟩ := computeMaxWm_spec rows m hmax
  have hrows : rows.isEmpty = false := by
    cases rows with
    | nil => simp [computeMaxWm] at hmax
    | cons _ _ => rfl
  have hio : incremental_object entity rows true now store =
      ⟨set_watermark store entity "hs_lastmodifieddate" m now,
       [⟨entity, rows, "append"⟩], none⟩ := by
    simp [incremental_object, hrows, hmax, pyTruthyStr, hne]
  rw [hio]
  exact ⟨rfl, rfl, rfl, hmem, hmaxall,
    fun d => get_set_watermark_same store entity "hs_lastmodifieddate" m now d⟩

theorem C2_amended_witness :
    computeMaxWm demoRows = some "2024-01-05T00:00:00Z" ∧
    ((incremental_object "crm_feedback_submissions" demoRows true 9 []).error = none ∧
     (incremental_object "crm_feedback_submissions" demoRows true 9 []).sinkWrites =
       [⟨"crm_feedback_submissions", demoRows, "append"⟩] ∧
     (incremental_object "crm_feedback_submissions" demoRows true 9 []).store =
       set_watermark [] "crm_feedback_submissions" "hs_lastmodifieddate"
         "2024-01-05T00:00:00Z" 9 ∧
     "2024-01-05T00:00:00Z" ∈ changeValues demoRows ∧
     (∀ v ∈ changeValues demoRows, strLt "2024-01-05T00:00:00Z" v = false) ∧
     (∀ d, get_watermark (incremental_object "crm_feedback_submissions" demoRows true 9 []).store
        "crm_feedback_submissions" d = some "2024-01-05T00:00:00Z")) :=
  ⟨by decide,
   C2_amended_watermark_max "crm_feedback_submissions" demoRows 9 []
     "2024-01-05T00:00:00Z" (by decide)⟩

/-- C3: if the sink write fails during an incremental run that fetched
records, the exception propagates before `set_watermark` is reached, so the
watermark table is unchanged and `get_watermark` for the entity returns the
same value as before the run. -/
theorem C3_write_failure_keeps_watermark (entity : String) (rows : List HsRecord)
    (now : Nat) (store : List WatermarkEntry) (hrows : rows ≠ []) :
    (incremental_object entity rows false now store).error = some "sink write failed" ∧
    (incremental_object entity rows false now store).sinkWrites = [] ∧
    (incremental_object entity rows false now store).store = store ∧
    ∀ d, get_watermark (incremental_object entity rows false now store).store entity d =
      get_watermark store entity d := by
  have hr : rows.isEmpty = false := by
    cases rows with
    | nil => exact absurd rfl hrows
    | cons _ _ => rfl
  simp [incremental_object, hr]

theorem C3_witness :
    (demoRows ≠ []) ∧
    ((incremental_object "crm_feedback_submissions" demoRows false 9 demoStore).error =
       some "sink write failed" ∧
     (incremental_object "crm_feedback_submissions" demoRows false 9 demoStore).sinkWrites = [] ∧
     (incremental_object "crm_feedback_submissions" demoRows false 9 demoStore).store =
       demoStore ∧
     ∀ d, get_watermark
        (incremental_object "crm_feedback_submissions" demoRows false 9 demoStore).store
        "crm_feedback_submissions" d =
       get_watermark demoStore "crm_feedback_submissions" d) :=
  ⟨by decide,
   C3_write_failure_keeps_watermark "crm_feedback_submissions" demoRows 9 demoStore (by decide)⟩

/-! ### Claims C4 and C9: full-load error propagation -/

theorem runSeq_first_failure (fails : String → Bool) :
    ∀ (pre : List String) (f : String) (post : List String),
      (∀ e ∈ pre, fails e = false) → fails f = true →
      runSeq fails (pre ++ f :: post) = (pre ++ [f], pre, some f) := by
  intro pre
  induction pre with
  | nil =>
    intro f post _ hf
    simp [runSeq, hf]
  | cons a rest ih =>
    intro f post hpre hf
    have ha : fails a = false := hpre a (by simp)
    have hrest : ∀ e ∈ rest, fails e = false := fun e he => hpre e (by simp [he])
    simp [runSeq, ha, ih f post hrest hf]

/-- C4 counterexample: when `load_owners` — the first statement of the
module-level run sequence — raises, the sequence stops there: `crm_owners` is
the only attempted entity, nothing completes, and the configured sibling
`cms_domains` is never attempted, refuting "the runner still attempts every
remaining configured entity". -/
theorem C4_counterexample :
    (runFullLoad (fun e => e == "crm_owners")).1 = ["crm_owners"] ∧
    (runFullLoad (fun e => e == "crm_owners")).2.1 = [] ∧
    (runFullLoad (fun e => e == "crm_owners")).2.2 = some "crm_owners" ∧
    "cms_domains" ∈ fullLoadSequence ∧
    "cms_domains" ∉ (runFullLoad (fun e => e == "crm_owners")).1 := by
  decide

/-- C4 (amended): the module-level full-load run (01, lines 84-98) executes
the configured entities strictly in sequence with no per-entity exception
handling: with `f` the first failing entity, every entity before `f`
completes, `f` is attempted and reported as the failure, and no entity after
`f` is attempted.  (Only the per-campaign revenue fetches inside
`load_campaign_revenue` are caught and skipped.) -/
theorem C4_amended_abort_on_first_failure (fails : String → Bool)
    (pre : List String) (f : String) (post : List String)
    (hseq : fullLoadSequence = pre ++ f :: post)
    (hpre : ∀ e ∈ pre, fails e = false) (hf : fails f = true) :
    runFullLoad fails = (pre ++ [f], pre, some f) ∧
    ∀ e ∈ post, e ∉ (runFullLoad fails).1 := by
  have hrun : runFullLoad fails = (pre ++ [f], pre, some f) := by
    unfold runFullLoad
    rw [hseq]
    exact runSeq_first_failure fails pre f post hpre hf
  refine ⟨hrun, ?_⟩
  intro e he
  rw [hrun]
  have hnodup : fullLoadSequence.Nodup := by decide
  rw [hseq] at hnodup
  rw [List.nodup_append] at hnodup
  obtain ⟨-, hfp, hdisj⟩ := hnodup
  rw [List.nodup_cons] at hfp
  simp only [List.mem_append, List.mem_singleton, not_or]
  constructor
  · intro hepre
    exact absurd (List.mem_cons_of_mem f he) (hdisj hepre)
  · intro hef
    exact hfp.1 (hef ▸ he)

theorem C4_amended_witness :
    (fullLoadSequence = ["crm_owners"] ++ "crm_marketing_events" ::
       ["crm_feedback_submissions", "crm_partner_clients", "crm_partner_services",
        "scheduler_meeting_links", "marketing_campaigns", "marketing_campaign_revenue",
        "settings_currencies", "cms_domains", "tax_rates", "comm_pref_definitions"]) ∧
    (∀ e ∈ (["crm_owners"] : List String), (e == "crm_marketing_events") = false) ∧
    (("crm_marketing_events" == "crm_marketing_events") = true) ∧
    (runFullLoad (fun e => e == "crm_marketing_events") =
       (["crm_owners"] ++ ["crm_marketing_events"], ["crm_owners"],
        some "crm_marketing_events") ∧
     ∀ e ∈ ["crm_feedback_submissions", "crm_partner_clients", "crm_partner_services",
        "scheduler_meeting_links", "marketing_campaigns", "marketing_campaign_revenue",
        "settings_currencies", "cms_domains", "tax_rates", "comm_pref_definitions"],
       e ∉ (runFullLoad (fun e => e == "crm_marketing_events")).1) :=
  ⟨by decide, by decide, by decide,
   C4_amended_abort_on_first_failure (fun e => e == "crm_marketing_events")
     ["crm_owners"] "crm_marketing_events"
     ["crm_feedback_submissions", "crm_partner_clients", "crm_partner_services",
      "scheduler_meeting_links", "marketing_campaigns", "marketing_campaign_revenue",
      "settings_currencies", "cms_domains", "tax_rates", "comm_pref_definitions"]
     (by decide) (by decide) (by decide)⟩

theorem foldl_revenueStep_eq (fetch : String → Option String) :
    ∀ (campaigns : List Campaign) (acc : List RevRecord),
      campaigns.foldl (revenueStep fetch) acc =
        acc ++ campaigns.filterMap (fun c => c.id.bind (fun g =>
          if g.isEmpty then none else (fetch g).map (fun b => ⟨b, g⟩))) := by
  intro campaigns
  induction campaigns with
  | nil => intro acc; simp
  | cons c rest ih =>
    intro acc
    simp only [List.foldl_cons, List.filterMap_cons]
    cases hid : c.id with
    | none => simp [revenueStep, hid, ih]
    | some g =>
      by_cases hg : g.isEmpty = true
      · simp [revenueStep, hid, hg, ih]
      · cases hf : fetch g with
        | none => simp [revenueStep, hid, Bool.eq_false_iff.mpr hg, hf, ih]
        | some b => simp [revenueStep, hid, Bool.eq_false_iff.mpr hg, hf, ih]

/-- C9: `load_campaign_revenue` writes exactly the tagged revenue rows of the
parents whose dependent fetch succeeded, in parent order — a per-parent fetch
failure is caught and skipped and removes only the row of that parent, so
the result of every other parent is still included in the written batch. -/
theorem C9_dependent_fetch_skip (campaigns : List Campaign) (fetch : String → Option String) :
    load_campaign_revenue campaigns fetch =
      campaigns.filterMap (fun c => c.id.bind (fun g =>
        if g.isEmpty then none else (fetch g).map (fun b => ⟨b, g⟩))) ∧
    ∀ c ∈ campaigns, ∀ g b, c.id = some g → g.isEmpty = false → fetch g = some b →
      (⟨b, g⟩ : RevRecord) ∈ load_campaign_revenue campaigns fetch := by
  have heq : load_campaign_revenue campaigns fetch =
      campaigns.filterMap (fun c => c.id.bind (fun g =>
        if g.isEmpty then none else (fetch g).map (fun b => ⟨b, g⟩))) :=
    foldl_revenueStep_eq fetch campaigns []
  refine ⟨heq, ?_⟩
  intro c hc g b hid hg hf
  rw [heq]
  refine List.mem_filterMap.mpr ⟨c, hc, ?_⟩
  simp [hid, hg, hf]

/-! ### Helper lemmas: the `hs_request` retry loop -/

theorem transient_not_lt_300 {s : Nat} (h : isTransientStatus s = true) : ¬ s < 300 := by
  simp only [isTransientStatus, Bool.or_eq_true, beq_iff_eq] at h
  omega

theorem hsLoopF_tokens (rs : Nat → HttpResponse) (mr : Nat) (tok : String) :
    ∀ (fuel attempt : Nat), 1 ≤ fuel → mr + 1 ≤ attempt + fuel →
      (hsLoopF rs mr tok attempt fuel).callTokens =
        List.replicate (hsLoopF rs mr tok attempt fuel).numCalls tok := by
  intro fuel
  induction fuel with
  | zero => intro attempt h1 _; omega
  | succ f ih =>
    intro attempt h1 h2
    simp only [hsLoopF]
    by_cases h300 : (rs (attempt + 1)).status < 300
    · simp [h300]
    · rw [if_neg h300]
      by_cases hretry :
          (isTransientStatus (rs (attempt + 1)).status && decide (attempt + 1 ≤ mr)) = true
      · rw [if_pos hretry]
        have hle : attempt + 1 ≤ mr :=
          of_decide_eq_true ((Bool.and_eq_true _ _).mp hretry).2
        have hrec := ih (attempt + 1) (by omega) (by omega)
        simp [hrec, List.replicate_succ]
      · rw [if_neg hretry]
        simp

theorem hsLoopF_bound (rs : Nat → HttpResponse) (mr : Nat) (tok : String) :
    ∀ (fuel attempt : Nat), 1 ≤ fuel → mr + 1 ≤ attempt + fuel →
      1 ≤ (hsLoopF rs mr tok attempt fuel).numCalls ∧
      ((hsLoopF rs mr tok attempt fuel).numCalls + attempt ≤ mr + 1 ∨
        (hsLoopF rs mr tok attempt fuel).numCalls = 1) := by
  intro fuel
  induction fuel with
  | zero => intro attempt h1 _; omega
  | succ f ih =>
    intro attempt h1 h2
    simp only [hsLoopF]
    by_cases h300 : (rs (attempt + 1)).status < 300
    · simp [h300]
    · rw [if_neg h300]
      by_cases hretry :
          (isTransientStatus (rs (attempt + 1)).status && decide (attempt + 1 ≤ mr)) = true
      · rw [if_pos hretry]
        have hle : attempt + 1 ≤ mr :=
          of_decide_eq_true ((Bool.and_eq_true _ _).mp hretry).2
        obtain ⟨ih1, ih2⟩ := ih (attempt + 1) (by omega) (by omega)
        constructor
        · simp
        · left
          rcases ih2 with h | h
          · simp only []
            omega
          · simp only [h]
            omega
      · rw [if_neg hretry]
        simp

theorem hsLoopF_outcome (rs : Nat → HttpResponse) (mr : Nat) (tok : String) :
    ∀ (fuel attempt : Nat), 1 ≤ fuel → mr + 1 ≤ attempt + fuel →
      (∀ b, (hsLoopF rs mr tok attempt fuel).outcome = HsOutcome.success b →
        (rs (attempt + (hsLoopF rs mr tok attempt fuel).numCalls)).status < 300 ∧
        b = decodeBody (rs (attempt + (hsLoopF rs mr tok attempt fuel).numCalls)) ∧
        ∀ i, 1 ≤ i → i < (hsLoopF rs mr tok attempt fuel).numCalls →
          ¬ (rs (attempt + i)).status < 300) ∧
      (∀ s txt, (hsLoopF rs mr tok attempt fuel).outcome = HsOutcome.apiError s txt →
        s = (rs (attempt + (hsLoopF rs mr tok attempt fuel).numCalls)).status ∧
        ¬ s < 300 ∧
        (isTransientStatus s = false ∨
          mr + 1 ≤ attempt + (hsLoopF rs mr tok attempt fuel).numCalls) ∧
        ∀ i, 1 ≤ i → i < (hsLoopF rs mr tok attempt fuel).numCalls →
          ¬ (rs (attempt + i)).status < 300) := by
  intro fuel
  induction fuel with
  | zero => intro attempt h1 _; omega
  | succ f ih =>
    intro attempt h1 h2
    simp only [hsLoopF]
    by_cases h300 : (rs (attempt + 1)).status < 300
    · rw [if_pos h300]
      constructor
      · intro b hb
        simp only [HsOutcome.success.injEq] at hb
        subst hb
        refine ⟨h300, rfl, ?_⟩
        intro i hi1 hi2
        simp at hi2
        omega
      · intro s txt hs
        simp at hs
    · rw [if_neg h300]
      by_cases hretry :
          (isTransientStatus (rs (attempt + 1)).status && decide (attempt + 1 ≤ mr)) = true
      · rw [if_pos hretry]
        have hle : attempt + 1 ≤ mr :=
          of_decide_eq_true ((Bool.and_eq_true _ _).mp hretry).2
        obtain ⟨ihs, ihe⟩ := ih (attempt + 1) (by omega) (by omega)
        have hprev : ∀ i, 1 ≤ i →
            i < (hsLoopF rs mr tok (attempt + 1) f).numCalls + 1 →
            (∀ j, 1 ≤ j → j < (hsLoopF rs mr tok (attempt + 1) f).numCalls →
              ¬ (rs (attempt + 1 + j)).status < 300) →
            ¬ (rs (attempt + i)).status < 300 := by
          intro i hi1 hi2 hall
          rcases Nat.eq_or_lt_of_le hi1 with h | h
          · rw [← h]
            exact h300
          · have := hall (i - 1) (by omega) (by omega)
            have harr : attempt + 1 + (i - 1) = attempt + i := by omega
            rwa [harr] at this
        constructor
        · intro b hb
          simp only [] at hb
          obtain ⟨s1, s2, s3⟩ := ihs b hb
          have harr : attempt + 1 + (hsLoopF rs mr tok (attempt + 1) f).numCalls =
              attempt + ((hsLoopF rs mr tok (attempt + 1) f).numCalls + 1) := by omega
          rw [harr] at s1 s2
          exact ⟨s1, s2, fun i hi1 hi2 => hprev i hi1 (by simpa using hi2) s3⟩
        · intro s txt hs
          simp only [] at hs
          obtain ⟨e1, e2, e3, e4⟩ := ihe s txt hs
          have harr : attempt + 1 + (hsLoopF rs mr tok (attempt + 1) f).numCalls =
              attempt + ((hsLoopF rs mr tok (attempt + 1) f).numCalls + 1) := by omega
          rw [harr] at e1 e3
          exact ⟨e1, e2, e3, fun i hi1 hi2 => hprev i hi1 (by simpa using hi2) e4⟩
      · rw [if_neg hretry]
        constructor
        · intro b hb
          simp at hb
        · intro s txt hs
          simp only [HsOutcome.apiError.injEq] at hs
          obtain ⟨hs1, hs2⟩ := hs
          subst hs1
          subst hs2
          refine ⟨rfl, h300, ?_, ?_⟩
          · rcases Bool.and_eq_false_iff.mp (Bool.eq_false_iff.mpr hretry) with h | h
            · exact Or.inl h
            · right
              have : ¬ (attempt + 1 ≤ mr) := of_decide_eq_false h
              simp only []
              omega
          · intro i hi1 hi2
            simp at hi2
            omega

theorem hsLoopF_success (rs : Nat → HttpResponse) (mr : Nat) (tok : String) :
    ∀ (n attempt fuel : Nat), n + 1 ≤ fuel →
      (∀ i, 1 ≤ i → i ≤ n → isTransientStatus (rs (attempt + i)).status = true) →
      (rs (attempt + n + 1)).status < 300 →
      attempt + n ≤ mr →
      hsLoopF rs mr tok attempt fuel =
        ⟨n + 1,
         (List.range n).map
           (fun i => retrySleep (attempt + i + 1) (rs (attempt + i + 1)).retryAfter),
         List.replicate (n + 1) tok,
         HsOutcome.success (decodeBody (rs (attempt + n + 1)))⟩ := by
  intro n
  induction n with
  | zero =>
    intro attempt fuel hfuel htr h300 hmr
    match fuel, hfuel with
    | f + 1, _ => simp [hsLoopF, h300]
  | succ n ih =>
    intro attempt fuel hfuel htr h300 hmr
    match fuel, hfuel with
    | f + 1, hfuel =>
      have h1 : isTransientStatus (rs (attempt + 1)).status = true := htr 1 (by omega) (by omega)
      have hn300 : ¬ (rs (attempt + 1)).status < 300 := transient_not_lt_300 h1
      have hle : attempt + 1 ≤ mr := by omega
      have hrec := ih (attempt + 1) f (by omega)
        (fun i hi1 hin => by
          have hti := htr (i + 1) (by omega) (by omega)
          have harr : attempt + (i + 1) = attempt + 1 + i := by omega
          rwa [harr] at hti)
        (by
          have harr : attempt + (n + 1) + 1 = attempt + 1 + n + 1 := by omega
          rwa [harr] at h300)
        (by omega)
      simp only [hsLoopF]
      rw [if_neg hn300]
      have hcond :
          (isTransientStatus (rs (attempt + 1)).status && decide (attempt + 1 ≤ mr)) = true := by
        simp [h1, hle]
      rw [if_pos hcond]
      rw [hrec]
      have hdel : (List.range (n + 1)).map
            (fun i => retrySleep (attempt + i + 1) (rs (attempt + i + 1)).retryAfter) =
          retrySleep (attempt + 1) (rs (attempt + 1)).retryAfter ::
            (List.range n).map
              (fun i => retrySleep (attempt + 1 + i + 1) (rs (attempt + 1 + i + 1)).retryAfter) := by
        rw [List.range_succ_eq_map, List.map_cons, List.map_map]
        congr 1
        apply List.map_congr_left
        intro i _
        have harr : attempt + Nat.succ i + 1 = attempt + 1 + i + 1 := by omega
        simp only [Function.comp_apply, harr]
      have harr : attempt + 1 + n + 1 = attempt + (n + 1) + 1 := by omega
      rw [hdel, harr]
      rfl

/-! ### Claims C1, C5 and C10: HTTP client behaviour -/

/-- C1 counterexample: a call whose first attempt is answered 500 and whose
second is answered 200 makes two HTTP attempts but fetches the access token
only once — the fetch happens on line 83, before the retry loop — so "one
token fetch per HTTP attempt" is false on the code. -/
theorem C1_counterexample :
    (hs_request (fun _ => "tok") cexTokenResponses 6).trace.numCalls = 2 ∧
    (hs_request (fun _ => "tok") cexTokenResponses 6).tokenFetches = 1 ∧
    (hs_request (fun _ => "tok") cexTokenResponses 6).tokenFetches ≠
      (hs_request (fun _ => "tok") cexTokenResponses 6).trace.numCalls := by
  decide

/-- C1 (amended): each call to `hs_request` obtains exactly one fresh access
token from the token provider, before the first HTTP attempt, and every
attempt of that call — including every retry after a transient failure —
reuses that same token (the client does not re-authenticate per attempt). -/
theorem C1_amended_single_token_fetch (tokenSeq : Nat → String)
    (rs : Nat → HttpResponse) (mr : Nat) :
    (hs_request tokenSeq rs mr).tokenFetches = 1 ∧
    (hs_request tokenSeq rs mr).trace.callTokens =
      List.replicate (hs_request tokenSeq rs mr).trace.numCalls (tokenSeq 0) :=
  ⟨rfl, hsLoopF_tokens rs mr (tokenSeq 0) (mr + 1) 0 (by omega) (by omega)⟩

/-- C5: for a response sequence of `n` transient failures (status in
429/500/502/503/504) with `n < max_retries` followed by a 2xx, `hs_request`
returns the decoded 2xx body after exactly `n + 1` HTTP attempts, and the
delay before each retry is `retrySleep` of the number of the failed attempt and
`Retry-After` header — the parsed header value when present and all digits,
otherwise `min 60 (2 ^ attempt)`. -/
theorem C5_transient_retry_then_success (tokenSeq : Nat → String)
    (rs : Nat → HttpResponse) (mr n : Nat)
    (hn : n < mr)
    (htrans : ∀ i, 1 ≤ i → i ≤ n → isTransientStatus (rs i).status = true)
    (_h2xx : 200 ≤ (rs (n + 1)).status) (h2xx' : (rs (n + 1)).status < 300) :
    (hs_request tokenSeq rs mr).trace.numCalls = n + 1 ∧
    (hs_request tokenSeq rs mr).trace.outcome =
      HsOutcome.success (decodeBody (rs (n + 1))) ∧
    (hs_request tokenSeq rs mr).trace.delays =
      (List.range n).map (fun i => retrySleep (i + 1) (rs (i + 1)).retryAfter) := by
  have h := hsLoopF_success rs mr (tokenSeq 0) n 0 (mr + 1) (by omega)
    (fun i hi1 hi2 => by simpa using htrans i hi1 hi2)
    (by simpa using h2xx')
    (by omega)
  have ht : (hs_request tokenSeq rs mr).trace = hsLoopF rs mr (tokenSeq 0) 0 (mr + 1) := rfl
  rw [ht, h]
  refine ⟨rfl, ?_, ?_⟩
  · have harr : 0 + n + 1 = n + 1 := by omega
    rw [harr]
  · apply List.map_congr_left
    intro i _
    have harr : 0 + i + 1 = i + 1 := by omega
    rw [harr]

theorem C5_witness :
    (1 : Nat) < 6 ∧
    (∀ i, 1 ≤ i → i ≤ 1 → isTransientStatus (retryResponses i).status = true) ∧
    200 ≤ (retryResponses 2).status ∧ (retryResponses 2).status < 300 ∧
    ((hs_request (fun _ => "tok") retryResponses 6).trace.numCalls = 1 + 1 ∧
     (hs_request (fun _ => "tok") retryResponses 6).trace.outcome =
       HsOutcome.success (decodeBody (retryResponses (1 + 1))) ∧
     (hs_request (fun _ => "tok") retryResponses 6).trace.delays =
       (List.range 1).map (fun i => retrySleep (i + 1) (retryResponses (i + 1)).retryAfter)) :=
  ⟨by decide,
   fun i hi1 hi2 => by
     have hi : i = 1 := by omega
     subst hi
     decide,
   by decide, by decide,
   C5_transient_retry_then_success (fun _ => "tok") retryResponses 6 1 (by decide)
     (fun i hi1 hi2 => by
        have hi : i = 1 := by omega
        subst hi
        decide)
     (by decide) (by decide)⟩

/-- C10: `hs_request` always terminates, in at most `max_retries + 1` HTTP
attempts; when it returns a body it is the decoded body of the first response
with status < 300 (all earlier responses were ≥ 300); when it raises, the
final status is not < 300 and is either non-retryable or the retry budget was
exhausted (`numCalls = max_retries + 1`). -/
theorem C10_hs_request_terminates (tokenSeq : Nat → String) (rs : Nat → HttpResponse)
    (mr : Nat) (t : HsTrace) (ht : t = (hs_request tokenSeq rs mr).trace) :
    1 ≤ t.numCalls ∧ t.numCalls ≤ mr + 1 ∧
    (∀ b, t.outcome = HsOutcome.success b →
      (rs t.numCalls).status < 300 ∧ b = decodeBody (rs t.numCalls) ∧
      ∀ i, 1 ≤ i → i < t.numCalls → ¬ (rs i).status < 300) ∧
    (∀ s txt, t.outcome = HsOutcome.apiError s txt →
      s = (rs t.numCalls).status ∧ ¬ s < 300 ∧
      (isTransientStatus s = false ∨ t.numCalls = mr + 1) ∧
      ∀ i, 1 ≤ i → i < t.numCalls → ¬ (rs i).status < 300) := by
  subst ht
  have htr : (hs_request tokenSeq rs mr).trace = hsLoopF rs mr (tokenSeq 0) 0 (mr + 1) := rfl
  rw [htr]
  obtain ⟨hb1, hb2⟩ := hsLoopF_bound rs mr (tokenSeq 0) (mr + 1) 0 (by omega) (by omega)
  obtain ⟨hsucc, herr⟩ := hsLoopF_outcome rs mr (tokenSeq 0) (mr + 1) 0 (by omega) (by omega)
  have hle : (hsLoopF rs mr (tokenSeq 0) 0 (mr + 1)).numCalls ≤ mr + 1 := by omega
  refine ⟨hb1, hle, ?_, ?_⟩
  · intro b hb
    obtain ⟨s1, s2, s3⟩ := hsucc b hb
    refine ⟨by simpa using s1, by simpa using s2, ?_⟩
    intro i hi1 hi2
    simpa using s3 i hi1 hi2
  · intro s txt hs
    obtain ⟨e1, e2, e3, e4⟩ := herr s txt hs
    refine ⟨by simpa using e1, e2, ?_, ?_⟩
    · rcases e3 with h | h
      · exact Or.inl h
      · right
        simp only [Nat.zero_add] at h
        omega
    · intro i hi1 hi2
      simpa using e4 i hi1 hi2

theorem C10_witness :
    okTrace = (hs_request (fun _ => "tok") okResponses 6).trace ∧
    (1 ≤ okTrace.numCalls ∧ okTrace.numCalls ≤ 6 + 1 ∧
     (∀ b, okTrace.outcome = HsOutcome.success b →
       (okResponses okTrace.numCalls).status < 300 ∧
       b = decodeBody (okResponses okTrace.numCalls) ∧
       ∀ i, 1 ≤ i → i < okTrace.numCalls → ¬ (okResponses i).status < 300) ∧
     (∀ s txt, okTrace.outcome = HsOutcome.apiError s txt →
       s = (okResponses okTrace.numCalls).status ∧ ¬ s < 300 ∧
       (isTransientStatus s = false ∨ okTrace.numCalls = 6 + 1) ∧
       ∀ i, 1 ≤ i → i < okTrace.numCalls → ¬ (okResponses i).status < 300)) :=
  ⟨by decide, C10_hs_request_terminates (fun _ => "tok") okResponses 6 okTrace (by decide)⟩

theorem C9_witness :
    (Campaign.mk (some "g3") ∈ demoCampaigns) ∧
    demoFetch "g2" = none ∧
    demoFetch "g3" = some "rev-g3" ∧
    load_campaign_revenue demoCampaigns demoFetch =
      [⟨"rev-g1", "g1"⟩, ⟨"rev-g3", "g3"⟩] ∧
    (⟨"rev-g3", "g3"⟩ : RevRecord) ∈ load_campaign_revenue demoCampaigns demoFetch :=
  ⟨by decide, by decide, by decide, by decide,
   (C9_dependent_fetch_skip demoCampaigns demoFetch).2 ⟨some "g3"⟩ (by decide) "g3" "rev-g3"
     rfl (by decide) (by decide)⟩

/-! ### Helper lemmas: pagination -/

theorem pyTruthyStr_iff (o : Option String) :
    pyTruthyStr o = true ↔ ∃ s, o = some s ∧ s.isEmpty = false := by
  cases o with
  | none => simp [pyTruthyStr]
  | some s => simp [pyTruthyStr]

theorem getParam_append_new : ∀ (p : Params) (k v : String),
    p.any (fun x => x.1 == k) = false → getParam (p ++ [(k, v)]) k = some v := by
  intro p k v h
  induction p with
  | nil => simp [getParam]
  | cons kv rest ih =>
    simp only [List.any_cons, Bool.or_eq_false_iff] at h
    rw [List.cons_append]
    unfold getParam at ih ⊢
    rw [List.find?_cons_of_neg _ (by simp [h.1])]
    exact ih h.2

theorem getParam_map_update : ∀ (p : Params) (k v : String),
    p.any (fun x => x.1 == k) = true →
    getParam (p.map (fun kv => if kv.1 == k then (k, v) else kv)) k = some v := by
  intro p k v h
  induction p with
  | nil => simp at h
  | cons kv rest ih =>
    rw [List.map_cons]
    by_cases hk : (kv.1 == k) = true
    · rw [if_pos hk]
      unfold getParam
      rw [List.find?_cons_of_pos _ (by simp)]
      rfl
    · have hk' : (kv.1 == k) = false := Bool.eq_false_iff.mpr hk
      rw [if_neg (by simp [hk'])]
      simp only [List.any_cons, hk', Bool.false_or] at h
      unfold getParam at ih ⊢
      rw [List.find?_cons_of_neg _ (by simp [hk'])]
      exact ih h

theorem getParam_setParam (p : Params) (k v : String) :
    getParam (setParam p k v) k = some v := by
  unfold setParam
  by_cases h : (p.any (fun x => x.1 == k)) = true
  · rw [if_pos h]
    exact getParam_map_update p k v h
  · rw [if_neg h]
    exact getParam_append_new p k v (Bool.eq_false_iff.mpr h)

theorem paramTrace_length (cs : List String) : ∀ (p : Params),
    (paramTrace p cs).length = cs.length + 1 := by
  induction cs with
  | nil => intro p; rfl
  | cons c rest ih => intro p; simp [paramTrace, ih]

theorem paramTrace_getElem_zero (cs : List String) (p : Params) :
    (paramTrace p cs)[0]? = some p := by
  cases cs <;> simp [paramTrace]

theorem paramTrace_head (cs : List String) (p : Params) :
    (paramTrace p cs).head? = some p := by
  cases cs <;> rfl

theorem paramTrace_step : ∀ (cs : List String) (p : Params) (i : Nat), i < cs.length →
    (paramTrace p cs)[i + 1]? =
      ((paramTrace p cs)[i]?).map (fun q => setParam q "after" (cs[i]?.getD "")) := by
  intro cs
  induction cs with
  | nil => intro p i hi; simp at hi
  | cons c rest ih =>
    intro p i hi
    cases i with
    | zero =>
      simp only [paramTrace, List.getElem?_cons_succ, List.getElem?_cons_zero, Option.map_some]
      rw [paramTrace_getElem_zero]
      rfl
    | succ j =>
      simp only [paramTrace, List.getElem?_cons_succ]
      exact ih (setParam p "after" c) j (by simpa using hi)

theorem paginateGo_spec : ∀ (mids : List PageData) (last : PageData) (params : Params),
    (∀ pg ∈ mids, pyTruthyStr pg.after = true) →
    pyTruthyStr last.after = false →
    paginateGo (mids ++ [last]) params =
      some (paramTrace params (mids.map (fun pg => pg.after.getD "")),
            ((mids ++ [last]).map PageData.results).flatten) := by
  intro mids
  induction mids with
  | nil =>
    intro last params _ hlast
    simp [paginateGo, hlast, paramTrace]
  | cons pg rest ih =>
    intro last params hmid hlast
    have hpg : pyTruthyStr pg.after = true := hmid pg (by simp)
    have hrest : ∀ q ∈ rest, pyTruthyStr q.after = true := fun q hq => hmid q (by simp [hq])
    rw [List.cons_append]
    simp only [paginateGo, hpg, if_true]
    rw [ih last (setParam params "after" (pg.after.getD "")) hrest hlast]
    simp [paramTrace]

/-- C6: for page responses in which every page but the last carries a truthy
cursor at `paging.next.after` and the last does not, `paginate_get` returns
the in-order concatenation of all pages' `results` fields, issues exactly one
HTTP call per page (the returned call-trace has one params dict per page),
starts from the caller's params, merges each cursor into the next call's
params under key `"after"` overwriting any prior value, and the next call's
`"after"` parameter is exactly the previous page's cursor, verbatim. -/
theorem C6_pagination (mids : List PageData) (last : PageData) (params : Params)
    (hmid : ∀ pg ∈ mids, pyTruthyStr pg.after = true)
    (hlast : pyTruthyStr last.after = false) :
    paginate_get (mids ++ [last]) params =
      some (paramTrace params (mids.map (fun pg => pg.after.getD "")),
            ((mids ++ [last]).map PageData.results).flatten) ∧
    (paramTrace params (mids.map (fun pg => pg.after.getD ""))).length =
      mids.length + 1 ∧
    (paramTrace params (mids.map (fun pg => pg.after.getD ""))).head? = some params ∧
    (∀ i, i < mids.length →
      (paramTrace params (mids.map (fun pg => pg.after.getD "")))[i + 1]? =
        ((paramTrace params (mids.map (fun pg => pg.after.getD "")))[i]?).map
          (fun q => setParam q "after"
            (((mids.map (fun pg => pg.after.getD ""))[i]?).getD ""))) ∧
    (∀ i, i < mids.length →
      ((paramTrace params (mids.map (fun pg => pg.after.getD "")))[i + 1]?).bind
        (fun q => getParam q "after") = (mids[i]?).bind PageData.after) := by
  refine ⟨paginateGo_spec mids last params hmid hlast, ?_, ?_, ?_, ?_⟩
  · rw [paramTrace_length]
    simp
  · exact paramTrace_head _ params
  · intro i hi
    exact paramTrace_step _ params i (by simpa using hi)
  · intro i hi
    have hstep := paramTrace_step (mids.map (fun pg => pg.after.getD "")) params i
      (by simpa using hi)
    rw [hstep]
    have hlen : i < (paramTrace params (mids.map (fun pg => pg.after.getD ""))).length := by
      rw [paramTrace_length (mids.map (fun pg => pg.after.getD "")) params]
      simp only [List.length_map]
      omega
    rw [List.getElem?_eq_getElem hlen, List.getElem?_map, List.getElem?_eq_getElem hi]
    have hpgmem : mids[i] ∈ mids := List.getElem_mem hi
    obtain ⟨s, hs, hse⟩ := (pyTruthyStr_iff _).mp (hmid _ hpgmem)
    simp [getParam_setParam, hs]

theorem C6_witness :
    (∀ pg ∈ demoMids, pyTruthyStr pg.after = true) ∧
    pyTruthyStr demoLast.after = false ∧
    paginate_get (demoMids ++ [demoLast]) demoParams =
      some ([[("limit", "100")],
             [("limit", "100"), ("after", "a")],
             [("limit", "100"), ("after", "b")]],
            ["r1", "r2", "r3"]) :=
  ⟨by decide, by decide,
   (C6_pagination demoMids demoLast demoParams (by decide) (by decide)).1⟩

end HubspotBronze
